import Mathlib

/-!
A verification development for a Gomoku (five-in-a-row) engine.

The engine operates on a 15×15 grid of cells drawn from {EMPTY, BLACK, WHITE}.
Its core pieces, embedded below, are:
* `check_five` / `game_over` — the win/draw detector;
* `line_score` / `evaluate_player` / `evaluate` — the static evaluator;
* `get_valid_moves` — the candidate-move generator (empty cells adjacent to a
  stone, with a centre-cell fallback);
* `minimax` — depth-limited alpha-beta search that mutates and restores the
  board while exploring (mutation is modelled by threading the board value).

Boards are modelled as total functions `Int → Int → Nat`; in-place mutation of
a cell becomes the functional override `setCell`.  Python's `±math.inf`
alpha/beta bounds become `⊥`/`⊤` of `Score := WithBot (WithTop ℤ)`.
-/

namespace Gomoku

def BOARD_SIZE : Nat := 15
def WIN_LEN : Nat := 5
def EMPTY : Nat := 0
def BLACK : Nat := 1
def WHITE : Nat := 2

/-- The four scan directions (dx, dy): vertical, horizontal, diag ↘, diag ↗. -/
def DIRECTIONS : List (Int × Int) := [(1, 0), (0, 1), (1, 1), (1, -1)]

abbrev Board := Int → Int → Nat

abbrev Move := Int × Int

def in_bounds (x y : Int) : Bool :=
  decide (0 ≤ x) && decide (x < (BOARD_SIZE : Int)) &&
    decide (0 ≤ y) && decide (y < (BOARD_SIZE : Int))

def create_board : Board := fun _ _ => EMPTY

/-- Functional model of the in-place cell assignment `board[x][y] = v`. -/
def setCell (b : Board) (x y : Int) (v : Nat) : Board :=
  fun i j => if i = x ∧ j = y then v else b i j

def opponent (player : Nat) : Nat := if player = WHITE then BLACK else WHITE

/-- Pattern score table (verbatim from the source). -/
def line_score (cnt : Int) (open_ends : Nat) : Int :=
  if (WIN_LEN : Int) ≤ cnt then 100000
  else if cnt = 4 then (if open_ends = 2 then 10000 else 1000)
  else if cnt = 3 then (if open_ends = 2 then 500 else 100)
  else if cnt = 2 then (if open_ends = 2 then 10 else 2)
  else 0

/-- The inner window loop of `evaluate_player`: walk `fuel` cells from
(nx, ny) in direction (dx, dy), counting the player's stones; `-1` is the
sentinel for a window that leaves the board or meets an opponent stone. -/
def windowCntAux (b : Board) (player : Nat) (dx dy : Int) :
    Int → Int → Int → Nat → Int
  | _, _, cnt, 0 => cnt
  | nx, ny, cnt, fuel + 1 =>
    if in_bounds nx ny then
      if b nx ny = player then
        windowCntAux b player dx dy (nx + dx) (ny + dy) (cnt + 1) fuel
      else if b nx ny = EMPTY then
        windowCntAux b player dx dy (nx + dx) (ny + dy) cnt fuel
      else -1
    else -1

/-- Count of the player's stones in the 5-cell window anchored at (x, y)
in direction (dx, dy); `-1` when the window is disqualified. -/
def windowCnt (b : Board) (player : Nat) (x y dx dy : Int) : Int :=
  windowCntAux b player dx dy x y 0 WIN_LEN

/-- Number of open ends (0–2) of the 5-cell window anchored at (x, y). -/
def openEnds (b : Board) (x y dx dy : Int) : Nat :=
  (if in_bounds (x - dx) (y - dy) && (b (x - dx) (y - dy) == EMPTY) then 1 else 0) +
    (if in_bounds (x + dx * WIN_LEN) (y + dy * WIN_LEN) &&
        (b (x + dx * WIN_LEN) (y + dy * WIN_LEN) == EMPTY) then 1 else 0)

/-- Row-major list of all board cells, as `Int` pairs. -/
def cellsRM : List Move :=
  (List.range BOARD_SIZE).flatMap fun x =>
    (List.range BOARD_SIZE).map fun y => (((x : Nat) : Int), ((y : Nat) : Int))

def evaluate_player (b : Board) (player : Nat) : Int :=
  cellsRM.foldl
    (fun s c =>
      DIRECTIONS.foldl
        (fun s2 d =>
          let cnt := windowCnt b player c.1 c.2 d.1 d.2
          if cnt = -1 then s2
          else s2 + line_score cnt (openEnds b c.1 c.2 d.1 d.2))
        s)
    0

def evaluate (b : Board) (player : Nat) : Int :=
  evaluate_player b player - evaluate_player b (opponent player)

/-- The `while` loop inside `check_five`: number of consecutive cells equal to
`player` starting at (nx, ny) and stepping by (dx, dy), truncated at `fuel`.
`fuel = BOARD_SIZE` is enough: along any of the four directions one coordinate
changes by 1 each step, so at most `BOARD_SIZE` in-bounds cells are visited. -/
def runLen (b : Board) (player : Nat) (dx dy : Int) : Int → Int → Nat → Nat
  | _, _, 0 => 0
  | nx, ny, fuel + 1 =>
    if in_bounds nx ny && (b nx ny == player) then
      runLen b player dx dy (nx + dx) (ny + dy) fuel + 1
    else 0

/-- True if the stone at (x, y) completes a five-in-a-row for `player`:
in some direction, 1 (the stone itself) plus the runs extending from it in the
two signed directions reaches `WIN_LEN`. -/
def check_five (b : Board) (x y : Int) (player : Nat) : Bool :=
  DIRECTIONS.any fun d =>
    decide (WIN_LEN ≤ 1 + runLen b player d.1 d.2 (x + d.1) (y + d.2) BOARD_SIZE
      + runLen b player (-d.1) (-d.2) (x - d.1) (y - d.2) BOARD_SIZE)

/-- Game outcome: a win for a player, a draw on a full board, or in progress
(the source returns the player constant, the string 'draw', or None). -/
inductive Outcome where
  | win (p : Nat)
  | draw
  | inProgress
deriving DecidableEq, Repr

def Outcome.isWin : Outcome → Bool
  | .win _ => true
  | _ => false

def isWinCell (b : Board) (c : Move) : Bool :=
  (b c.1 c.2 != EMPTY) && check_five b c.1 c.2 (b c.1 c.2)

def game_over (b : Board) : Outcome :=
  match cellsRM.find? (isWinCell b) with
  | some c => Outcome.win (b c.1 c.2)
  | none =>
    if cellsRM.all (fun c => b c.1 c.2 != EMPTY) then Outcome.draw
    else Outcome.inProgress

/-- The 3×3 Moore neighbourhood offsets, in the source's iteration order
(`for dx in (-1,0,1): for dy in (-1,0,1)`); (0,0) is harmless because the
centre cell of an occupied neighbourhood is never `EMPTY`. -/
def neighborOffsets : List (Int × Int) :=
  [(-1, -1), (-1, 0), (-1, 1), (0, -1), (0, 0), (0, 1), (1, -1), (1, 0), (1, 1)]

/-- Model of `set.add`: the Python `set` is modelled as a duplicate-free list
in first-insertion order (the spec leaves the iteration order to the
implementation, asking only that it be deterministic). -/
def addMove (acc : List Move) (m : Move) : List Move :=
  if m ∈ acc then acc else acc ++ [m]

/-- Collect the in-bounds empty neighbours of the occupied cell (x, y). -/
def candAdds (b : Board) (x y : Int) (acc : List Move) : List Move :=
  neighborOffsets.foldl
    (fun a d =>
      if in_bounds (x + d.1) (y + d.2) && (b (x + d.1) (y + d.2) == EMPTY) then
        addMove a (x + d.1, y + d.2)
      else a)
    acc

/-- The main collection loop of `get_valid_moves`. -/
def collectMoves (b : Board) : List Move :=
  cellsRM.foldl
    (fun acc c => if b c.1 c.2 ≠ EMPTY then candAdds b c.1 c.2 acc else acc)
    []

def get_valid_moves (b : Board) : List Move :=
  let moves := collectMoves b
  if moves = [] then [((BOARD_SIZE / 2 : Nat), (BOARD_SIZE / 2 : Nat))] else moves

/-- The sort key: Manhattan distance to the board centre. -/
def moveKey (m : Move) : Nat :=
  (m.1 - ((BOARD_SIZE / 2 : Nat) : Int)).natAbs + (m.2 - ((BOARD_SIZE / 2 : Nat) : Int)).natAbs

/-- `moves.sort(key=...)` — a stable sort by centre distance. -/
def sorted_moves (b : Board) : List Move :=
  (get_valid_moves b).mergeSort fun m1 m2 => moveKey m1 ≤ moveKey m2

/-- Scores live in ℤ extended with `⊥ = -math.inf` and `⊤ = math.inf`. -/
abbrev Score := WithBot (WithTop Int)

/-- Embedding of a plain integer score. -/
def sc (n : Int) : Score := ((n : WithTop Int) : Score)

/-- The maximizing loop of `minimax`, with the recursive call abstracted as
`rec` (taking the child board and the current alpha/beta); threads the board
through place / recurse / restore exactly as the source mutates it. -/
def abLoopMax (rec : Board → Score → Score → Option Move × Score × Board)
    (player : Nat) :
    List Move → Board → Score → Score → Option Move → Score →
      Option Move × Score × Board
  | [], b, _, _, best, value => (best, value, b)
  | m :: rest, b, alpha, beta, best, value =>
    let r := rec (setCell b m.1 m.2 player) alpha beta
    let b2 := setCell r.2.2 m.1 m.2 EMPTY
    let value' := if value < r.2.1 then r.2.1 else value
    let best' := if value < r.2.1 then some m else best
    let alpha' := max alpha value'
    if beta ≤ alpha' then (best', value', b2)
    else abLoopMax rec player rest b2 alpha' beta best' value'

/-- The minimizing loop of `minimax` (the mover is the opponent). -/
def abLoopMin (rec : Board → Score → Score → Option Move × Score × Board)
    (opp : Nat) :
    List Move → Board → Score → Score → Option Move → Score →
      Option Move × Score × Board
  | [], b, _, _, best, value => (best, value, b)
  | m :: rest, b, alpha, beta, best, value =>
    let r := rec (setCell b m.1 m.2 opp) alpha beta
    let b2 := setCell r.2.2 m.1 m.2 EMPTY
    let value' := if r.2.1 < value then r.2.1 else value
    let best' := if r.2.1 < value then some m else best
    let beta' := min beta value'
    if beta' ≤ alpha then (best', value', b2)
    else abLoopMin rec opp rest b2 alpha beta' best' value'

/-- Alpha-beta minimax.  Returns (best move, score, board-after-call); the
third component witnesses the restoration discipline of the in-place search. -/
def minimax : Nat → Board → Score → Score → Bool → Nat →
    Option Move × Score × Board
  | d, b, alpha, beta, maximizing, player =>
    let w := game_over b
    if w = Outcome.win player then (none, sc 1000000, b)
    else if w.isWin then (none, sc (-1000000), b)
    else if w = Outcome.draw then (none, sc 0, b)
    else
      match d with
      | 0 => (none, sc (evaluate b player), b)
      | k + 1 =>
        let moves := sorted_moves b
        if maximizing then
          abLoopMax (fun b' a bt => minimax k b' a bt false player) player
            moves b alpha beta none ⊥
        else
          abLoopMin (fun b' a bt => minimax k b' a bt true player)
            (opponent player) moves b alpha beta none ⊤

/-- Unpruned minimax over the same tree: same terminal checks, candidate
generation, ordering and evaluation, with the alpha/beta cutoffs removed. -/
def minimax_np : Nat → Board → Bool → Nat → Score
  | d, b, maximizing, player =>
    let w := game_over b
    if w = Outcome.win player then sc 1000000
    else if w.isWin then sc (-1000000)
    else if w = Outcome.draw then sc 0
    else
      match d with
      | 0 => sc (evaluate b player)
      | k + 1 =>
        let moves := sorted_moves b
        if maximizing then
          moves.foldl
            (fun v m => max v (minimax_np k (setCell b m.1 m.2 player) false player)) ⊥
        else
          moves.foldl
            (fun v m =>
              min v (minimax_np k (setCell b m.1 m.2 (opponent player)) true player)) ⊤

/-- Top-level move choice; `pick` abstracts `random.choice` on the regenerated
candidate list (the only non-deterministic point of the engine). -/
def ai_move (pick : List Move → Option Move) (b : Board) (player : Nat)
    (d : Nat) : Option Move × Board :=
  let r := minimax d b ⊥ ⊤ true player
  match r.1 with
  | some m => (some m, r.2.2)
  | none => (pick (get_valid_moves r.2.2), r.2.2)

/-! ### Basic lemmas about cells, boards and scores -/

theorem in_bounds_iff {x y : Int} :
    in_bounds x y = true ↔ 0 ≤ x ∧ x < 15 ∧ 0 ≤ y ∧ y < 15 := by
  simp [in_bounds, BOARD_SIZE, and_assoc]

theorem setCell_restore {b : Board} {x y : Int} {v : Nat}
    (h : b x y = EMPTY) : setCell (setCell b x y v) x y EMPTY = b := by
  funext i j
  by_cases hij : i = x ∧ j = y
  · obtain ⟨rfl, rfl⟩ := hij
    simp [setCell, h]
  · simp [setCell, hij]

theorem mem_cellsRM {c : Move} :
    c ∈ cellsRM ↔
      ∃ x : Nat, x < BOARD_SIZE ∧ ∃ y : Nat, y < BOARD_SIZE ∧
        c = ((x : Int), (y : Int)) := by
  unfold cellsRM
  rw [List.mem_flatMap]
  constructor
  · rintro ⟨x, hx, hc⟩
    rw [List.mem_map] at hc
    obtain ⟨y, hy, h⟩ := hc
    exact ⟨x, List.mem_range.1 hx, y, List.mem_range.1 hy, h.symm⟩
  · rintro ⟨x, hx, y, hy, rfl⟩
    exact ⟨x, List.mem_range.2 hx, List.mem_map.2 ⟨y, List.mem_range.2 hy, rfl⟩⟩

theorem mem_cellsRM_of_in_bounds {x y : Int} (h : in_bounds x y = true) :
    (x, y) ∈ cellsRM := by
  rw [in_bounds_iff] at h
  rw [mem_cellsRM]
  refine ⟨x.toNat, ?_, y.toNat, ?_, ?_⟩
  · simp [BOARD_SIZE]; omega
  · simp [BOARD_SIZE]; omega
  · simp only [Prod.mk.injEq]
    constructor <;> omega

theorem sc_lt_sc {a c : Int} : sc a < sc c ↔ a < c := by
  simp [sc]

theorem sc_le_sc {a c : Int} : sc a ≤ sc c ↔ a ≤ c := by
  simp [sc]

theorem bot_lt_sc (z : Int) : (⊥ : Score) < sc z := WithBot.bot_lt_coe _

theorem sc_lt_top (z : Int) : sc z < (⊤ : Score) := by
  have h1 : ((⊤ : WithTop Int) : Score) = (⊤ : Score) := rfl
  rw [← h1, sc, WithBot.coe_lt_coe]
  exact WithTop.coe_lt_top z

theorem if_lt_eq_max {a c : Score} : (if a < c then c else a) = max a c := by
  rcases lt_or_le a c with h | h
  · rw [if_pos h, max_eq_right h.le]
  · rw [if_neg (not_lt.2 h), max_eq_left h]

theorem if_lt_eq_min {a c : Score} : (if c < a then c else a) = min a c := by
  rcases lt_or_le c a with h | h
  · rw [if_pos h, min_eq_right h.le]
  · rw [if_neg (not_lt.2 h), min_eq_left h]

/-! ### Claim C1 — the `line_score` table -/

/-- C1 (counterexample): the spec's table says `line_score(4, 0) = 0`, but the
source's `else` branch makes `open_ends = 0` score like `open_ends = 1`,
so `line_score 4 0 = 1000 ≠ 0`. -/
theorem line_score_claim_false : line_score 4 0 = 1000 ∧ ¬ line_score 4 0 = 0 := by
  constructor <;> decide

/-- C1 (amended): `line_score` returns 100000 whenever `count ≥ 5`; for
count 4 it returns 10000 with two open ends and 1000 with one or zero; for
count 3: 500 and 100; for count 2: 10 and 2; and 0 whenever `count < 2`. -/
theorem line_score_table :
    (∀ c : Int, 5 ≤ c → ∀ oe : Nat, line_score c oe = 100000) ∧
    line_score 4 2 = 10000 ∧ line_score 4 1 = 1000 ∧ line_score 4 0 = 1000 ∧
    line_score 3 2 = 500 ∧ line_score 3 1 = 100 ∧ line_score 3 0 = 100 ∧
    line_score 2 2 = 10 ∧ line_score 2 1 = 2 ∧ line_score 2 0 = 2 ∧
    (∀ c : Int, c < 2 → ∀ oe : Nat, line_score c oe = 0) := by
  refine ⟨?_, by decide, by decide, by decide, by decide, by decide, by decide,
    by decide, by decide, by decide, ?_⟩
  · intro c hc oe
    rw [line_score, if_pos]
    show (WIN_LEN : Int) ≤ c
    simpa [WIN_LEN] using hc
  · intro c hc oe
    rw [line_score, if_neg, if_neg, if_neg, if_neg]
    · omega
    · omega
    · omega
    · show ¬ (WIN_LEN : Int) ≤ c
      simp only [WIN_LEN]
      omega

theorem line_score_table_witness :
    line_score 7 0 = 100000 ∧ line_score 1 2 = 0 :=
  ⟨line_score_table.1 7 (by decide) 0,
    line_score_table.2.2.2.2.2.2.2.2.2.2 1 (by decide) 2⟩

/-! ### Claim C7 — evaluate is the zero-sum difference of per-player scores -/

set_option maxRecDepth 40000 in
/-- C7: `evaluate b p = evaluate_player b p − evaluate_player b (opponent p)`;
hence `evaluate b BLACK = -evaluate b WHITE` on every board, and on the empty
board both players evaluate to 0. -/
theorem evaluate_zero_sum :
    (∀ b p, evaluate b p = evaluate_player b p - evaluate_player b (opponent p)) ∧
    (∀ b, evaluate b BLACK = - evaluate b WHITE) ∧
    evaluate create_board BLACK = 0 ∧ evaluate create_board WHITE = 0 := by
  have h1 : ∀ b p, evaluate b p = evaluate_player b p - evaluate_player b (opponent p) :=
    fun _ _ => rfl
  have h2 : ∀ b : Board, evaluate b BLACK = - evaluate b WHITE := by
    intro b
    have hb : opponent BLACK = WHITE := by decide
    have hw : opponent WHITE = BLACK := by decide
    rw [h1 b BLACK, h1 b WHITE, hb, hw]
    ring
  have h3 : evaluate create_board BLACK = 0 := by decide
  refine ⟨h1, h2, h3, ?_⟩
  have := h2 create_board
  omega

/-! ### Claim C8 — centre opening on the empty board -/

/-- C8: on the all-empty board the candidate-move generator returns exactly
the single centre cell (7, 7). -/
theorem get_valid_moves_empty_board :
    get_valid_moves create_board = [((7 : Int), (7 : Int))] := by decide

/-! ### Claims C4 and C5 — terminal and depth-0 returns of the search -/

/-- C4: whatever the depth, bounds, or maximizing flag, the search checks the
game outcome first and returns, with an absent move and an unchanged board,
+1000000 on a win for the root player, −1000000 on a win for the other
player, and 0 on a draw. -/
theorem minimax_terminal (d : Nat) (b : Board) (alpha beta : Score)
    (maxi : Bool) (p : Nat) (w : Outcome)
    (hw : game_over b = w) (hnw : w ≠ Outcome.inProgress) :
    minimax d b alpha beta maxi p =
      (none,
       (match w with
        | Outcome.win q => if q = p then sc 1000000 else sc (-1000000)
        | Outcome.draw => sc 0
        | Outcome.inProgress => sc 0), b) := by
  rw [minimax.eq_def]
  simp only [hw]
  cases w with
  | win q =>
    by_cases hq : q = p
    · subst hq; simp [Outcome.isWin]
    · simp [Outcome.isWin, hq, Ne.symm]
  | draw => simp [Outcome.isWin]
  | inProgress => exact absurd rfl hnw

/-- A board with a completed horizontal black five in row 7, columns 3–7. -/
def bWinRow : Board := fun i j => if i = 7 ∧ 3 ≤ j ∧ j ≤ 7 then BLACK else EMPTY

theorem minimax_terminal_witness :
    game_over bWinRow = Outcome.win BLACK ∧
    minimax 3 bWinRow ⊥ ⊤ true WHITE = (none, sc (-1000000), bWinRow) :=
  ⟨by decide,
    minimax_terminal 3 bWinRow ⊥ ⊤ true WHITE (Outcome.win BLACK)
      (by decide) (by decide)⟩

/-- C5: on a non-terminal board, depth-0 search returns an absent move paired
with exactly `evaluate b p` (and the board unchanged), for any bounds and
either maximizing flag. -/
theorem minimax_depth0 (b : Board) (alpha beta : Score) (maxi : Bool)
    (p : Nat) (h : game_over b = Outcome.inProgress) :
    minimax 0 b alpha beta maxi p = (none, sc (evaluate b p), b) := by
  rw [minimax.eq_def]
  simp [h, Outcome.isWin]

theorem minimax_depth0_witness :
    game_over create_board = Outcome.inProgress ∧
    minimax 0 create_board ⊥ ⊤ true BLACK =
      (none, sc (evaluate create_board BLACK), create_board) :=
  ⟨by decide, minimax_depth0 create_board ⊥ ⊤ true BLACK (by decide)⟩

/-! ### The candidate-move generator: membership, non-emptiness -/

theorem mem_addMove {acc : List Move} {m n : Move} (h : m ∈ addMove acc n) :
    m ∈ acc ∨ m = n := by
  unfold addMove at h
  split at h
  · exact Or.inl h
  · rcases List.mem_append.1 h with h | h
    · exact Or.inl h
    · exact Or.inr (List.mem_singleton.1 h)

theorem subset_addMove (acc : List Move) (n : Move) : acc ⊆ addMove acc n := by
  unfold addMove
  split
  · exact fun _ h => h
  · exact fun m hm => List.mem_append.2 (Or.inl hm)

theorem self_mem_addMove (acc : List Move) (n : Move) : n ∈ addMove acc n := by
  unfold addMove
  split
  · assumption
  · exact List.mem_append.2 (Or.inr (List.mem_singleton.2 rfl))

theorem addMove_ne_nil (acc : List Move) (n : Move) : addMove acc n ≠ [] :=
  List.ne_nil_of_mem (self_mem_addMove acc n)

theorem foldl_subset {β : Type} (step : List Move → β → List Move)
    (hstep : ∀ a z, a ⊆ step a z) :
    ∀ (l : List β) (acc : List Move), acc ⊆ l.foldl step acc := by
  intro l
  induction l with
  | nil => exact fun acc => List.Subset.refl acc
  | cons d t ih =>
    intro acc
    exact (hstep acc d).trans (ih (step acc d))

theorem foldl_ne_nil {β : Type} (step : List Move → β → List Move)
    (hstep : ∀ a z, a ⊆ step a z) (l : List β) (acc : List Move)
    (hacc : acc ≠ []) : l.foldl step acc ≠ [] := by
  obtain ⟨m, hm⟩ := List.exists_mem_of_ne_nil acc hacc
  exact List.ne_nil_of_mem (foldl_subset step hstep l acc hm)

theorem mem_candAdds_aux {b : Board} {x y : Int} :
    ∀ (l : List (Int × Int)) (acc : List Move) (m : Move),
      m ∈ l.foldl
        (fun a d =>
          if in_bounds (x + d.1) (y + d.2) && (b (x + d.1) (y + d.2) == EMPTY) then
            addMove a (x + d.1, y + d.2)
          else a) acc →
      m ∈ acc ∨ (in_bounds m.1 m.2 = true ∧ b m.1 m.2 = EMPTY) := by
  intro l
  induction l with
  | nil => exact fun acc m h => Or.inl h
  | cons d t ih =>
    intro acc m h
    rcases ih _ m h with h2 | h2
    · revert h2
      dsimp only
      split
      · rename_i hcond
        intro h2
        rcases mem_addMove h2 with h3 | h3
        · exact Or.inl h3
        · subst h3
          rw [Bool.and_eq_true, beq_iff_eq] at hcond
          exact Or.inr hcond
      · exact Or.inl
    · exact Or.inr h2

theorem mem_candAdds {b : Board} {x y : Int} {acc : List Move} {m : Move}
    (h : m ∈ candAdds b x y acc) :
    m ∈ acc ∨ (in_bounds m.1 m.2 = true ∧ b m.1 m.2 = EMPTY) :=
  mem_candAdds_aux neighborOffsets acc m h

theorem subset_candAdds (b : Board) (x y : Int) (acc : List Move) :
    acc ⊆ candAdds b x y acc := by
  unfold candAdds
  apply foldl_subset
  intro a z
  split
  · exact subset_addMove a _
  · exact List.Subset.refl a

theorem candAdds_ne_nil {b : Board} {x y : Int} (acc : List Move)
    {d : Int × Int} (hd : d ∈ neighborOffsets)
    (hcond : in_bounds (x + d.1) (y + d.2) = true ∧ b (x + d.1) (y + d.2) = EMPTY) :
    candAdds b x y acc ≠ [] := by
  obtain ⟨s, t, hst⟩ := List.append_of_mem hd
  unfold candAdds
  rw [hst, List.foldl_append, List.foldl_cons]
  have hcond' : (in_bounds (x + d.1) (y + d.2) && (b (x + d.1) (y + d.2) == EMPTY)) = true := by
    rw [Bool.and_eq_true, beq_iff_eq]; exact hcond
  rw [hcond']
  simp only [if_true]
  apply foldl_ne_nil
  · intro a z
    split
    · exact subset_addMove a _
    · exact List.Subset.refl a
  · exact addMove_ne_nil _ _

theorem mem_collectMoves {b : Board} {m : Move} (h : m ∈ collectMoves b) :
    in_bounds m.1 m.2 = true ∧ b m.1 m.2 = EMPTY := by
  unfold collectMoves at h
  have main : ∀ (l : List Move) (acc : List Move),
      (∀ m' ∈ acc, in_bounds m'.1 m'.2 = true ∧ b m'.1 m'.2 = EMPTY) →
      ∀ m' ∈ l.foldl
        (fun acc c => if b c.1 c.2 ≠ EMPTY then candAdds b c.1 c.2 acc else acc) acc,
        in_bounds m'.1 m'.2 = true ∧ b m'.1 m'.2 = EMPTY := by
    intro l
    induction l with
    | nil => exact fun acc hacc m' hm' => hacc m' hm'
    | cons c t ih =>
      intro acc hacc m' hm'
      refine ih _ ?_ m' hm'
      intro n hn
      revert hn
      dsimp only
      split
      · intro hn
        rcases mem_candAdds hn with h2 | h2
        · exact hacc n h2
        · exact h2
      · exact hacc n
  exact main cellsRM [] (by intro m' hm'; cases hm') m h

theorem collectMoves_ne_nil {b : Board} {c : Move} (hc : c ∈ cellsRM)
    (hocc : b c.1 c.2 ≠ EMPTY) {d : Int × Int} (hd : d ∈ neighborOffsets)
    (hcond : in_bounds (c.1 + d.1) (c.2 + d.2) = true ∧
      b (c.1 + d.1) (c.2 + d.2) = EMPTY) :
    collectMoves b ≠ [] := by
  obtain ⟨s, t, hst⟩ := List.append_of_mem hc
  unfold collectMoves
  rw [hst, List.foldl_append, List.foldl_cons]
  rw [if_pos hocc]
  apply foldl_ne_nil
  · intro a z
    split
    · exact subset_candAdds b _ _ a
    · exact List.Subset.refl a
  · exact candAdds_ne_nil _ hd hcond

theorem collectMoves_eq_nil {b : Board}
    (h : ∀ c ∈ cellsRM, b c.1 c.2 ≠ EMPTY → ∀ d ∈ neighborOffsets,
      ¬(in_bounds (c.1 + d.1) (c.2 + d.2) = true ∧
        b (c.1 + d.1) (c.2 + d.2) = EMPTY)) :
    collectMoves b = [] := by
  unfold collectMoves
  have main : ∀ (l : List Move), (∀ c ∈ l, c ∈ cellsRM) →
      l.foldl (fun acc c => if b c.1 c.2 ≠ EMPTY then candAdds b c.1 c.2 acc else acc)
        [] = [] := by
    intro l
    induction l with
    | nil => intro _; rfl
    | cons c t ih =>
      intro hl
      rw [List.foldl_cons]
      have hstep : (if b c.1 c.2 ≠ EMPTY then candAdds b c.1 c.2 [] else []) = [] := by
        split
        · rename_i hocc
          unfold candAdds
          have inner : ∀ (l2 : List (Int × Int)), (∀ d ∈ l2, d ∈ neighborOffsets) →
              l2.foldl (fun a d =>
                if in_bounds (c.1 + d.1) (c.2 + d.2) &&
                    (b (c.1 + d.1) (c.2 + d.2) == EMPTY) then
                  addMove a (c.1 + d.1, c.2 + d.2)
                else a) [] = [] := by
            intro l2
            induction l2 with
            | nil => intro _; rfl
            | cons d t2 ih2 =>
              intro hl2
              rw [List.foldl_cons]
              have hcond : ¬ ((in_bounds (c.1 + d.1) (c.2 + d.2) &&
                  (b (c.1 + d.1) (c.2 + d.2) == EMPTY)) = true) := by
                rw [Bool.and_eq_true, beq_iff_eq]
                exact h c (hl c (List.mem_cons_self c t)) hocc d
                  (hl2 d (List.mem_cons_self d t2))
              rw [if_neg hcond]
              exact ih2 (fun d' hd' => hl2 d' (List.mem_cons_of_mem d hd'))
          exact inner neighborOffsets (fun d hd => hd)
        · rfl
      rw [hstep]
      exact ih (fun c' hc' => hl c' (List.mem_cons_of_mem c hc'))
  exact main cellsRM (fun c hc => hc)

/-! ### Connectivity: a non-empty, non-full board has an occupied cell with an
empty neighbour, so the centre-cell fallback fires only on the empty board or
when every stone is completely walled in (which forces a full board). -/

/-- Discrete intermediate-value: walking from `a` (where `P` holds) up to `c`
(where it fails) crosses a boundary `i`, `i + 1`. -/
theorem int_ivt_aux (P : Int → Prop) [DecidablePred P] :
    ∀ (n : Nat) (a c : Int), c - a = n → a ≤ c → P a → ¬ P c →
      ∃ i, a ≤ i ∧ i < c ∧ P i ∧ ¬ P (i + 1) := by
  intro n
  induction n with
  | zero =>
    intro a c h _ ha hc
    have : a = c := by omega
    exact absurd (this ▸ ha) hc
  | succ k ih =>
    intro a c h hac ha hc
    by_cases hP : P (a + 1)
    · obtain ⟨i, h1, h2, h3, h4⟩ := ih (a + 1) c (by omega) (by omega) hP hc
      exact ⟨i, by omega, h2, h3, h4⟩
    · exact ⟨a, le_refl a, by omega, ha, hP⟩

theorem int_ivt (P : Int → Prop) [DecidablePred P] (a c : Int)
    (hac : a ≤ c) (ha : P a) (hc : ¬ P c) :
    ∃ i, a ≤ i ∧ i < c ∧ P i ∧ ¬ P (i + 1) :=
  int_ivt_aux P (c - a).toNat a c (by omega) hac ha hc

/-- On a grid holding both an occupied cell and an empty cell, some occupied
cell has an empty in-bounds Moore neighbour (walk along the occupied cell's
row, then down the target column, and take the first occupied→empty step). -/
theorem occupied_has_empty_neighbor {b : Board} {x y u v : Int}
    (hxy : in_bounds x y = true) (hocc : b x y ≠ EMPTY)
    (huv : in_bounds u v = true) (hemp : b u v = EMPTY) :
    ∃ c : Move, in_bounds c.1 c.2 = true ∧ b c.1 c.2 ≠ EMPTY ∧
      ∃ d ∈ neighborOffsets, in_bounds (c.1 + d.1) (c.2 + d.2) = true ∧
        b (c.1 + d.1) (c.2 + d.2) = EMPTY := by
  rw [in_bounds_iff] at hxy huv
  by_cases hxv : b x v = EMPTY
  · rcases le_or_lt y v with hyv | hvy
    · obtain ⟨i, h1, h2, h3, h4⟩ :=
        int_ivt (fun j => b x j ≠ EMPTY) y v hyv hocc (by simpa using hxv)
      rw [not_not] at h4
      exact ⟨(x, i), by rw [in_bounds_iff]; constructor <;> omega, h3,
        (0, 1), by decide, by rw [in_bounds_iff]; constructor <;> omega,
        by simpa using h4⟩
    · obtain ⟨i, h1, h2, h3, h4⟩ :=
        int_ivt (fun j => b x j = EMPTY) v y hvy.le hxv hocc
      exact ⟨(x, i + 1), by rw [in_bounds_iff]; constructor <;> omega, h4,
        (0, -1), by decide, by rw [in_bounds_iff]; constructor <;> omega,
        by simpa using h3⟩
  · rcases le_or_lt x u with hxu | hux
    · obtain ⟨i, h1, h2, h3, h4⟩ :=
        int_ivt (fun j => b j v ≠ EMPTY) x u hxu hxv (by simpa using hemp)
      rw [not_not] at h4
      exact ⟨(i, v), by rw [in_bounds_iff]; constructor <;> omega, h3,
        (1, 0), by decide, by rw [in_bounds_iff]; constructor <;> omega,
        by simpa using h4⟩
    · obtain ⟨i, h1, h2, h3, h4⟩ :=
        int_ivt (fun j => b j v = EMPTY) u x hux.le hemp hxv
      exact ⟨(i + 1, v), by rw [in_bounds_iff]; constructor <;> omega, h4,
        (-1, 0), by decide, by rw [in_bounds_iff]; constructor <;> omega,
        by simpa using h3⟩

/-! ### Consequences for `get_valid_moves` and `sorted_moves` -/

theorem center_pair :
    (((BOARD_SIZE / 2 : Nat) : Int), ((BOARD_SIZE / 2 : Nat) : Int)) =
      (((7 : Int)), ((7 : Int))) := by decide

theorem get_valid_moves_ne_nil (b : Board) : get_valid_moves b ≠ [] := by
  unfold get_valid_moves
  by_cases h : collectMoves b = []
  · rw [if_pos h]; simp
  · rw [if_neg h]; exact h

/-- `game_over b = InProgress` forces an empty in-range cell. -/
theorem exists_empty_of_inProgress {b : Board}
    (h : game_over b = Outcome.inProgress) :
    ∃ c : Move, c ∈ cellsRM ∧ b c.1 c.2 = EMPTY := by
  unfold game_over at h
  rcases hf : cellsRM.find? (isWinCell b) with _ | c
  · rw [hf] at h
    by_cases hall : cellsRM.all (fun c => b c.1 c.2 != EMPTY) = true
    · rw [if_pos hall] at h; cases h
    · rw [List.all_eq_true] at hall
      push_neg at hall
      obtain ⟨c, hc, hne⟩ := hall
      refine ⟨c, hc, ?_⟩
      simpa using hne
  · rw [hf] at h; cases h

/-- On a board still in progress, every candidate move names an empty cell
(this is where connectivity matters: the centre fallback can only fire on the
fully empty board). -/
theorem valid_moves_empty {b : Board} (h : game_over b = Outcome.inProgress) :
    ∀ m ∈ get_valid_moves b, b m.1 m.2 = EMPTY := by
  obtain ⟨ce, hce, hcee⟩ := exists_empty_of_inProgress h
  intro m hm
  unfold get_valid_moves at hm
  by_cases hc : collectMoves b = []
  · rw [if_pos hc] at hm
    have hm7 : m = (((BOARD_SIZE / 2 : Nat) : Int), ((BOARD_SIZE / 2 : Nat) : Int)) := by
      simpa using hm
    by_cases hoc : ∃ c : Move, c ∈ cellsRM ∧ b c.1 c.2 ≠ EMPTY
    · obtain ⟨co, hco, hcoo⟩ := hoc
      have hcb : in_bounds co.1 co.2 = true := by
        rw [mem_cellsRM] at hco
        obtain ⟨xx, hxx, yy, hyy, hceq⟩ := hco
        rw [in_bounds_iff, hceq]
        simp only []
        constructor
        · omega
        constructor
        · simp [BOARD_SIZE] at hxx ⊢; omega
        constructor
        · omega
        · simp [BOARD_SIZE] at hyy ⊢; omega
      have heb : in_bounds ce.1 ce.2 = true := by
        rw [mem_cellsRM] at hce
        obtain ⟨xx, hxx, yy, hyy, hceq⟩ := hce
        rw [in_bounds_iff, hceq]
        simp only []
        constructor
        · omega
        constructor
        · simp [BOARD_SIZE] at hxx ⊢; omega
        constructor
        · omega
        · simp [BOARD_SIZE] at hyy ⊢; omega
      obtain ⟨cw, hcw1, hcw2, d, hd, hnb, hne⟩ :=
        occupied_has_empty_neighbor hcb hcoo heb hcee
      exact absurd (collectMoves_ne_nil (mem_cellsRM_of_in_bounds hcw1) hcw2 hd
        ⟨hnb, hne⟩) (by simpa using hc)
    · push_neg at hoc
      have h77 : (((BOARD_SIZE / 2 : Nat) : Int), ((BOARD_SIZE / 2 : Nat) : Int)) ∈ cellsRM := by
        rw [mem_cellsRM]
        exact ⟨BOARD_SIZE / 2, by decide, BOARD_SIZE / 2, by decide, rfl⟩
      have := hoc _ h77
      rw [hm7]
      simpa using this
  · rw [if_neg hc] at hm
    exact (mem_collectMoves hm).2

theorem mem_sorted_moves {b : Board} {m : Move} :
    m ∈ sorted_moves b ↔ m ∈ get_valid_moves b := by
  unfold sorted_moves
  exact List.mem_mergeSort

theorem sorted_moves_ne_nil (b : Board) : sorted_moves b ≠ [] := by
  intro h
  obtain ⟨m, hm⟩ := List.exists_mem_of_ne_nil _ (get_valid_moves_ne_nil b)
  rw [← mem_sorted_moves] at hm
  rw [h] at hm
  cases hm

theorem sorted_moves_empty {b : Board} (h : game_over b = Outcome.inProgress) :
    ∀ m ∈ sorted_moves b, b m.1 m.2 = EMPTY :=
  fun m hm => valid_moves_empty h m (mem_sorted_moves.1 hm)

/-! ### Claim C10 — the candidate set is never empty; isolated boards get the
centre cell even if it is occupied -/

/-- C10: `get_valid_moves` is never empty, and whenever no empty in-bounds
cell is adjacent (Moore) to any occupied cell — e.g. on the empty board or on
a full board — it returns exactly the centre cell (7, 7), whether or not that
cell is occupied. -/
theorem get_valid_moves_spec (b : Board) :
    get_valid_moves b ≠ [] ∧
      ((∀ x : Nat, x < BOARD_SIZE → ∀ y : Nat, y < BOARD_SIZE →
          b (x : Int) (y : Int) ≠ EMPTY → ∀ d ∈ neighborOffsets,
          ¬(in_bounds ((x : Int) + d.1) ((y : Int) + d.2) = true ∧
            b ((x : Int) + d.1) ((y : Int) + d.2) = EMPTY)) →
        get_valid_moves b = [((7 : Int), (7 : Int))]) := by
  refine ⟨get_valid_moves_ne_nil b, ?_⟩
  intro hblock
  have hnil : collectMoves b = [] := by
    apply collectMoves_eq_nil
    intro c hc hocc d hd
    rw [mem_cellsRM] at hc
    obtain ⟨xx, hxx, yy, hyy, hceq⟩ := hc
    rw [hceq]
    rw [hceq] at hocc
    exact hblock xx hxx yy hyy hocc d hd
  unfold get_valid_moves
  rw [if_pos hnil, center_pair]

/-- On the all-black board no cell is empty, so the blocking hypothesis holds
and the generator returns the (occupied!) centre cell. -/
def bFull : Board := fun _ _ => BLACK

theorem get_valid_moves_spec_witness :
    get_valid_moves bFull = [((7 : Int), (7 : Int))] ∧ bFull 7 7 ≠ EMPTY :=
  ⟨(get_valid_moves_spec bFull).2 (by decide), by decide⟩

/-! ### Claim C2 — the search restores the board on every return path -/

theorem abLoopMax_board {rec : Board → Score → Score → Option Move × Score × Board}
    {p : Nat} (hrec : ∀ b' a bt, (rec b' a bt).2.2 = b') :
    ∀ (ms : List Move) (b : Board) (alpha beta : Score) (best : Option Move)
      (value : Score),
      (∀ m ∈ ms, b m.1 m.2 = EMPTY) →
      (abLoopMax rec p ms b alpha beta best value).2.2 = b := by
  intro ms
  induction ms with
  | nil => intro b alpha beta best value _; rfl
  | cons m rest ih =>
    intro b alpha beta best value hms
    rw [abLoopMax]
    have hb2 : setCell (rec (setCell b m.1 m.2 p) alpha beta).2.2 m.1 m.2 EMPTY = b := by
      rw [hrec]
      exact setCell_restore (hms m (List.mem_cons_self m rest))
    simp only [hb2]
    split <;> split
    · rfl
    · exact ih b _ _ _ _ (fun m' hm' => hms m' (List.mem_cons_of_mem m hm'))
    · rfl
    · exact ih b _ _ _ _ (fun m' hm' => hms m' (List.mem_cons_of_mem m hm'))

theorem abLoopMin_board {rec : Board → Score → Score → Option Move × Score × Board}
    {p : Nat} (hrec : ∀ b' a bt, (rec b' a bt).2.2 = b') :
    ∀ (ms : List Move) (b : Board) (alpha beta : Score) (best : Option Move)
      (value : Score),
      (∀ m ∈ ms, b m.1 m.2 = EMPTY) →
      (abLoopMin rec p ms b alpha beta best value).2.2 = b := by
  intro ms
  induction ms with
  | nil => intro b alpha beta best value _; rfl
  | cons m rest ih =>
    intro b alpha beta best value hms
    rw [abLoopMin]
    have hb2 : setCell (rec (setCell b m.1 m.2 p) alpha beta).2.2 m.1 m.2 EMPTY = b := by
      rw [hrec]
      exact setCell_restore (hms m (List.mem_cons_self m rest))
    simp only [hb2]
    split <;> split
    · rfl
    · exact ih b _ _ _ _ (fun m' hm' => hms m' (List.mem_cons_of_mem m hm'))
    · rfl
    · exact ih b _ _ _ _ (fun m' hm' => hms m' (List.mem_cons_of_mem m hm'))

theorem outcome_inProgress {w : Outcome} (h2 : ¬ w.isWin = true)
    (h3 : ¬ w = Outcome.draw) : w = Outcome.inProgress := by
  cases w
  · simp [Outcome.isWin] at h2
  · exact absurd rfl h3
  · rfl

theorem minimax_board :
    ∀ (d : Nat) (b : Board) (alpha beta : Score) (maxi : Bool) (p : Nat),
      (minimax d b alpha beta maxi p).2.2 = b := by
  intro d
  induction d with
  | zero =>
    intro b alpha beta maxi p
    rw [minimax.eq_def]
    dsimp only
    split
    · rfl
    · split
      · rfl
      · split
        · rfl
        · rfl
  | succ k ih =>
    intro b alpha beta maxi p
    rw [minimax.eq_def]
    dsimp only
    split
    · rfl
    · split
      · rfl
      · split
        · rfl
        · rename_i h1 h2 h3
          have hip : game_over b = Outcome.inProgress := outcome_inProgress h2 h3
          split
          · exact abLoopMax_board (fun b' a bt => ih b' a bt false p) _ b
              alpha beta none ⊥ (sorted_moves_empty hip)
          · exact abLoopMin_board (fun b' a bt => ih b' a bt true p) _ b
              alpha beta none ⊤ (sorted_moves_empty hip)

/-- C2: for every board, depth, bounds and flag, the search returns the board
exactly equal to its pre-call value along every return path (cutoffs
included); `ai_move` likewise leaves the board untouched. -/
theorem minimax_restores_board :
    (∀ (d : Nat) (b : Board) (alpha beta : Score) (maxi : Bool) (p : Nat),
      (minimax d b alpha beta maxi p).2.2 = b) ∧
    (∀ (pick : List Move → Option Move) (b : Board) (p : Nat) (d : Nat),
      (ai_move pick b p d).2 = b) := by
  refine ⟨minimax_board, ?_⟩
  intro pick b p d
  have hb := minimax_board d b ⊥ ⊤ true p
  unfold ai_move
  cases h : (minimax d b ⊥ ⊤ true p).1 <;> simp [h, hb]

/-! ### Claim C9 — when is the returned move absent? -/

theorem abLoopMax_fin {rec : Board → Score → Score → Option Move × Score × Board}
    {p : Nat} (hrec : ∀ b' a bt, ∃ z : Int, (rec b' a bt).2.1 = sc z) :
    ∀ (ms : List Move) (b : Board) (alpha beta : Score) (best : Option Move)
      (value : Score),
      ((value = ⊥ ∧ ms ≠ []) ∨ ∃ z : Int, value = sc z) →
      ∃ z : Int, (abLoopMax rec p ms b alpha beta best value).2.1 = sc z := by
  intro ms
  induction ms with
  | nil =>
    rintro b alpha beta best value (⟨_, hne⟩ | ⟨z, hz⟩)
    · exact absurd rfl hne
    · exact ⟨z, hz⟩
  | cons m rest ih =>
    intro b alpha beta best value hpre
    rw [abLoopMax]
    obtain ⟨zc, hzc⟩ := hrec (setCell b m.1 m.2 p) alpha beta
    split
    · -- value' = child score, which is finite
      split
      · exact ⟨zc, hzc⟩
      · exact ih _ _ _ _ _ (Or.inr ⟨zc, hzc⟩)
    · -- value' = value; since ¬ value < child, value cannot be ⊥
      rename_i hnlt
      have hv : ∃ z : Int, value = sc z := by
        rcases hpre with ⟨hv, _⟩ | hv
        · exact absurd (by rw [hv, hzc]; exact bot_lt_sc zc) hnlt
        · exact hv
      split
      · exact hv
      · exact ih _ _ _ _ _ (Or.inr hv)

theorem abLoopMin_fin {rec : Board → Score → Score → Option Move × Score × Board}
    {p : Nat} (hrec : ∀ b' a bt, ∃ z : Int, (rec b' a bt).2.1 = sc z) :
    ∀ (ms : List Move) (b : Board) (alpha beta : Score) (best : Option Move)
      (value : Score),
      ((value = ⊤ ∧ ms ≠ []) ∨ ∃ z : Int, value = sc z) →
      ∃ z : Int, (abLoopMin rec p ms b alpha beta best value).2.1 = sc z := by
  intro ms
  induction ms with
  | nil =>
    rintro b alpha beta best value (⟨_, hne⟩ | ⟨z, hz⟩)
    · exact absurd rfl hne
    · exact ⟨z, hz⟩
  | cons m rest ih =>
    intro b alpha beta best value hpre
    rw [abLoopMin]
    obtain ⟨zc, hzc⟩ := hrec (setCell b m.1 m.2 p) alpha beta
    split
    · split
      · exact ⟨zc, hzc⟩
      · exact ih _ _ _ _ _ (Or.inr ⟨zc, hzc⟩)
    · rename_i hnlt
      have hv : ∃ z : Int, value = sc z := by
        rcases hpre with ⟨hv, _⟩ | hv
        · exact absurd (by rw [hv, hzc]; exact sc_lt_top zc) hnlt
        · exact hv
      split
      · exact hv
      · exact ih _ _ _ _ _ (Or.inr hv)

/-- Every score the search returns is a plain integer (`±math.inf` never
escapes): terminal scores are literals and each loop runs at least once. -/
theorem minimax_fin :
    ∀ (d : Nat) (b : Board) (alpha beta : Score) (maxi : Bool) (p : Nat),
      ∃ z : Int, (minimax d b alpha beta maxi p).2.1 = sc z := by
  intro d
  induction d with
  | zero =>
    intro b alpha beta maxi p
    rw [minimax.eq_def]
    dsimp only
    split
    · exact ⟨1000000, rfl⟩
    · split
      · exact ⟨-1000000, rfl⟩
      · split
        · exact ⟨0, rfl⟩
        · exact ⟨evaluate b p, rfl⟩
  | succ k ih =>
    intro b alpha beta maxi p
    rw [minimax.eq_def]
    dsimp only
    split
    · exact ⟨1000000, rfl⟩
    · split
      · exact ⟨-1000000, rfl⟩
      · split
        · exact ⟨0, rfl⟩
        · split
          · exact abLoopMax_fin (fun b' a bt => ih b' a bt false p) _ b
              alpha beta none ⊥ (Or.inl ⟨rfl, sorted_moves_ne_nil b⟩)
          · exact abLoopMin_fin (fun b' a bt => ih b' a bt true p) _ b
              alpha beta none ⊤ (Or.inl ⟨rfl, sorted_moves_ne_nil b⟩)

theorem abLoopMax_isSome
    {rec : Board → Score → Score → Option Move × Score × Board} {p : Nat}
    (hrec : ∀ b' a bt, ∃ z : Int, (rec b' a bt).2.1 = sc z) :
    ∀ (ms : List Move) (b : Board) (alpha beta : Score) (best : Option Move)
      (value : Score),
      (best.isSome = true ∨ (value = ⊥ ∧ ms ≠ [])) →
      ((abLoopMax rec p ms b alpha beta best value).1).isSome = true := by
  intro ms
  induction ms with
  | nil =>
    rintro b alpha beta best value (hb | ⟨_, hne⟩)
    · exact hb
    · exact absurd rfl hne
  | cons m rest ih =>
    intro b alpha beta best value hpre
    rw [abLoopMax]
    obtain ⟨zc, hzc⟩ := hrec (setCell b m.1 m.2 p) alpha beta
    split
    · -- best' = some m
      split
      · rfl
      · exact ih _ _ _ _ _ (Or.inl rfl)
    · rename_i hnlt
      have hb : best.isSome = true := by
        rcases hpre with hb | ⟨hv, _⟩
        · exact hb
        · exact absurd (by rw [hv, hzc]; exact bot_lt_sc zc) hnlt
      split
      · exact hb
      · exact ih _ _ _ _ _ (Or.inl hb)

theorem abLoopMin_isSome
    {rec : Board → Score → Score → Option Move × Score × Board} {p : Nat}
    (hrec : ∀ b' a bt, ∃ z : Int, (rec b' a bt).2.1 = sc z) :
    ∀ (ms : List Move) (b : Board) (alpha beta : Score) (best : Option Move)
      (value : Score),
      (best.isSome = true ∨ (value = ⊤ ∧ ms ≠ [])) →
      ((abLoopMin rec p ms b alpha beta best value).1).isSome = true := by
  intro ms
  induction ms with
  | nil =>
    rintro b alpha beta best value (hb | ⟨_, hne⟩)
    · exact hb
    · exact absurd rfl hne
  | cons m rest ih =>
    intro b alpha beta best value hpre
    rw [abLoopMin]
    obtain ⟨zc, hzc⟩ := hrec (setCell b m.1 m.2 p) alpha beta
    split
    · split
      · rfl
      · exact ih _ _ _ _ _ (Or.inl rfl)
    · rename_i hnlt
      have hb : best.isSome = true := by
        rcases hpre with hb | ⟨hv, _⟩
        · exact hb
        · exact absurd (by rw [hv, hzc]; exact sc_lt_top zc) hnlt
      split
      · exact hb
      · exact ih _ _ _ _ _ (Or.inl hb)

theorem minimax_isSome (d : Nat) (hd : d ≠ 0) (b : Board)
    (alpha beta : Score) (maxi : Bool) (p : Nat)
    (hip : game_over b = Outcome.inProgress) :
    ((minimax d b alpha beta maxi p).1).isSome = true := by
  cases d with
  | zero => exact absurd rfl hd
  | succ k =>
    rw [minimax.eq_def]
    dsimp only
    rw [hip]
    rw [if_neg (by simp), if_neg (by simp [Outcome.isWin]), if_neg (by simp)]
    split
    · exact abLoopMax_isSome (fun b' a bt => minimax_fin k b' a bt false p) _ b
        alpha beta none ⊥ (Or.inr ⟨rfl, sorted_moves_ne_nil b⟩)
    · exact abLoopMin_isSome (fun b' a bt => minimax_fin k b' a bt true p) _ b
        alpha beta none ⊤ (Or.inr ⟨rfl, sorted_moves_ne_nil b⟩)

set_option maxRecDepth 100000 in
/-- C9 (counterexample): on a board that is already won, `minimax` returns an
absent move even though the candidate-move set is non-empty — so the random
fallback in `ai_move` is reached with candidates present, contradicting
"absent only when the candidate set was empty". -/
theorem minimax_none_with_candidates :
    (minimax 2 bWinRow ⊥ ⊤ true BLACK).1 = none ∧
      get_valid_moves bWinRow ≠ [] := by
  constructor
  · decide
  · decide

/-- C9 (amended): the move returned by the search is absent exactly on the
terminal / depth-0 return paths; whenever `game_over` is `InProgress` and
`depth ≥ 1`, the returned move is present (the generator's candidate list is
never empty), so `ai_move`'s random fallback is reached only on terminal or
depth-0 calls, never because of an empty candidate set. -/
theorem minimax_move_present (d : Nat) (b : Board) (alpha beta : Score)
    (maxi : Bool) (p : Nat) (hd : d ≠ 0)
    (hip : game_over b = Outcome.inProgress) :
    ((minimax d b alpha beta maxi p).1).isSome = true :=
  minimax_isSome d hd b alpha beta maxi p hip

def bOne : Board := setCell create_board 0 0 BLACK

set_option maxRecDepth 100000 in
theorem minimax_move_present_witness :
    (1 : Nat) ≠ 0 ∧ game_over bOne = Outcome.inProgress ∧
      ((minimax 1 bOne ⊥ ⊤ true WHITE).1).isSome = true :=
  ⟨by decide, by decide,
    minimax_move_present 1 bOne ⊥ ⊤ true WHITE (by decide) (by decide)⟩

/-! ### Claim C3 — characterisation of `game_over` -/

/-- Spec-side predicate: the occupied cell (x, y) completes a line of at
least `WIN_LEN` contiguous same-player stones in one of the four directions,
counting the runs extending from (x, y) both ways. -/
def winAt (b : Board) (x y : Nat) : Prop :=
  b (x : Int) (y : Int) ≠ EMPTY ∧
    ∃ d ∈ DIRECTIONS, WIN_LEN ≤
      1 + runLen b (b (x : Int) (y : Int)) d.1 d.2 ((x : Int) + d.1)
            ((y : Int) + d.2) BOARD_SIZE
        + runLen b (b (x : Int) (y : Int)) (-d.1) (-d.2) ((x : Int) - d.1)
            ((y : Int) - d.2) BOARD_SIZE

instance winAt_decidable (b : Board) (x y : Nat) : Decidable (winAt b x y) := by
  unfold winAt
  infer_instance

theorem winAt_iff {b : Board} {x y : Nat} :
    winAt b x y ↔ isWinCell b ((x : Int), (y : Int)) = true := by
  unfold winAt isWinCell check_five
  rw [Bool.and_eq_true, bne_iff_ne, List.any_eq_true]
  constructor
  · rintro ⟨h1, d, hd, h2⟩
    exact ⟨h1, d, hd, by simpa using h2⟩
  · rintro ⟨h1, d, hd, h2⟩
    exact ⟨h1, d, hd, by simpa using h2⟩

/-- `find?` returns the first element satisfying the predicate. -/
theorem find?_eq_of_first {α : Type} (p : α → Bool) :
    ∀ (l : List α) (i : Nat) (h : i < l.length),
      p (l.get ⟨i, h⟩) = true →
      (∀ j (hj : j < i), p (l.get ⟨j, Nat.lt_trans hj h⟩) = false) →
      l.find? p = some (l.get ⟨i, h⟩) := by
  intro l
  induction l with
  | nil => intro i h; exact absurd h (Nat.not_lt_zero i)
  | cons a t ih =>
    intro i h hp hprev
    cases i with
    | zero => exact List.find?_cons_of_pos t hp
    | succ j =>
      have ha : p a = false := hprev 0 (Nat.succ_pos j)
      rw [List.find?_cons_of_neg t (by rw [ha]; exact Bool.false_ne_true)]
      exact ih j (Nat.lt_of_succ_lt_succ h) hp
        (fun j2 hj2 => hprev (j2 + 1) (Nat.succ_lt_succ hj2))

set_option maxRecDepth 100000 in
theorem cellsRM_eq_map :
    cellsRM = (List.range 225).map
      (fun i => (((i / 15 : Nat) : Int), ((i % 15 : Nat) : Int))) := by decide

set_option maxRecDepth 100000 in
theorem cellsRM_length : cellsRM.length = 225 := by decide

theorem cellsRM_get (i : Nat) (h : i < cellsRM.length) :
    cellsRM.get ⟨i, h⟩ = (((i / 15 : Nat) : Int), ((i % 15 : Nat) : Int)) := by
  have h2 : i < 225 := by
    rw [cellsRM_length] at h
    exact h
  rw [List.get_eq_getElem]
  simp only [cellsRM_eq_map, List.getElem_map, List.getElem_range]

/-- Row-major rank of a cell. -/
def rmIdx (x y : Nat) : Nat := x * BOARD_SIZE + y

set_option maxHeartbeats 1000000 in
/-- C3: if some occupied cell completes a line of ≥ 5 contiguous same-player
stones in one of the four directions, `game_over` reports the win of the
first such cell in row-major order; with no such cell it reports `Draw` on a
full board and `InProgress` otherwise. -/
theorem game_over_cases (b : Board) :
    (∀ x y : Nat, x < BOARD_SIZE → y < BOARD_SIZE → winAt b x y →
      (∀ x2 : Nat, x2 < BOARD_SIZE → ∀ y2 : Nat, y2 < BOARD_SIZE →
        rmIdx x2 y2 < rmIdx x y → ¬ winAt b x2 y2) →
      game_over b = Outcome.win (b (x : Int) (y : Int))) ∧
    ((∀ x y : Nat, x < BOARD_SIZE → y < BOARD_SIZE → ¬ winAt b x y) →
      (∀ x y : Nat, x < BOARD_SIZE → y < BOARD_SIZE →
        b (x : Int) (y : Int) ≠ EMPTY) →
      game_over b = Outcome.draw) ∧
    ((∀ x y : Nat, x < BOARD_SIZE → y < BOARD_SIZE → ¬ winAt b x y) →
      (∃ x y : Nat, x < BOARD_SIZE ∧ y < BOARD_SIZE ∧
        b (x : Int) (y : Int) = EMPTY) →
      game_over b = Outcome.inProgress) := by
  refine ⟨?_, ?_, ?_⟩
  · intro x y hx hy hwin hfirst
    simp only [BOARD_SIZE] at hx hy
    have hi : rmIdx x y < cellsRM.length := by
      rw [cellsRM_length]
      unfold rmIdx
      simp only [BOARD_SIZE]
      omega
    have hget : cellsRM.get ⟨rmIdx x y, hi⟩ = ((x : Int), (y : Int)) := by
      rw [cellsRM_get]
      unfold rmIdx
      simp only [BOARD_SIZE]
      have hdiv : (x * 15 + y) / 15 = x := by omega
      have hmod : (x * 15 + y) % 15 = y := by omega
      rw [hdiv, hmod]
    have hp : isWinCell b (cellsRM.get ⟨rmIdx x y, hi⟩) = true := by
      rw [hget]
      exact winAt_iff.1 hwin
    have hprev : ∀ j (hj : j < rmIdx x y),
        isWinCell b (cellsRM.get ⟨j, Nat.lt_trans hj hi⟩) = false := by
      intro j hj
      have hj225 : j < 225 := Nat.lt_trans hj (by rw [cellsRM_length] at hi; exact hi)
      rw [cellsRM_get]
      have hx2 : j / 15 < 15 := by omega
      have hy2 : j % 15 < 15 := by omega
      have hlt : rmIdx (j / 15) (j % 15) < rmIdx x y := by
        unfold rmIdx at hj ⊢
        simp only [BOARD_SIZE] at hj ⊢
        omega
      have hnw := hfirst (j / 15) (by simpa [BOARD_SIZE] using hx2) (j % 15)
        (by simpa [BOARD_SIZE] using hy2) hlt
      rw [Bool.eq_false_iff]
      intro hcontra
      exact hnw (winAt_iff.2 hcontra)
    have hfind := find?_eq_of_first (isWinCell b) cellsRM (rmIdx x y) hi hp hprev
    rw [hget] at hfind
    unfold game_over
    rw [hfind]
  · intro hnw hfull
    have hfind : cellsRM.find? (isWinCell b) = none := by
      rw [List.find?_eq_none]
      intro c hc
      rw [mem_cellsRM] at hc
      obtain ⟨x, hx, y, hy, rfl⟩ := hc
      intro hcontra
      exact hnw x y hx hy (winAt_iff.2 hcontra)
    have hall : cellsRM.all (fun c => b c.1 c.2 != EMPTY) = true := by
      rw [List.all_eq_true]
      intro c hc
      rw [mem_cellsRM] at hc
      obtain ⟨x, hx, y, hy, rfl⟩ := hc
      rw [bne_iff_ne]
      exact hfull x y hx hy
    unfold game_over
    rw [hfind, if_pos hall]
  · intro hnw hemp
    have hfind : cellsRM.find? (isWinCell b) = none := by
      rw [List.find?_eq_none]
      intro c hc
      rw [mem_cellsRM] at hc
      obtain ⟨x, hx, y, hy, rfl⟩ := hc
      intro hcontra
      exact hnw x y hx hy (winAt_iff.2 hcontra)
    have hall : ¬ cellsRM.all (fun c => b c.1 c.2 != EMPTY) = true := by
      rw [List.all_eq_true]
      intro hcontra
      obtain ⟨x, y, hx, hy, he⟩ := hemp
      have hmem : ((x : Int), (y : Int)) ∈ cellsRM := by
        rw [mem_cellsRM]
        exact ⟨x, hx, y, hy, rfl⟩
      have := hcontra _ hmem
      rw [bne_iff_ne] at this
      exact this he
    unfold game_over
    rw [hfind, if_neg hall]

set_option maxRecDepth 1000000 in
theorem game_over_cases_witness :
    winAt bWinRow 7 3 ∧ game_over bWinRow = Outcome.win BLACK :=
  ⟨by decide,
    (game_over_cases bWinRow).1 7 3 (by decide) (by decide) (by decide)
      (by decide)⟩

/-! ### Claim C6 — alpha-beta pruning computes the unpruned minimax value.
The proof is the classic fail-soft correctness argument: the pruned value `S`
relates to the true value `v` by: `S ≤ α → v ≤ S`, `α < S < β → S = v`, and
`β ≤ S → S ≤ v`. -/

/-- The fail-soft relation between a pruned score and the exact score. -/
def KMrel (S v alpha beta : Score) : Prop :=
  (S ≤ alpha → v ≤ S) ∧ (alpha < S → S < beta → S = v) ∧ (beta ≤ S → S ≤ v)

theorem KMrel_of_eq {S v alpha beta : Score} (h : S = v) : KMrel S v alpha beta :=
  ⟨fun _ => h.ge, fun _ _ => h, fun _ => h.le⟩

theorem foldl_max_from (q : Move → Score) :
    ∀ (ms : List Move) (v : Score),
      ms.foldl (fun a m => max a (q m)) v =
        max v (ms.foldl (fun a m => max a (q m)) ⊥) := by
  intro ms
  induction ms with
  | nil => intro v; simp
  | cons m t ih =>
    intro v
    rw [List.foldl_cons, List.foldl_cons]
    rw [ih (max v (q m)), ih (max ⊥ (q m))]
    rw [bot_sup_eq, max_assoc]

theorem le_foldl_max (q : Move → Score) (ms : List Move) (v : Score) :
    v ≤ ms.foldl (fun a m => max a (q m)) v := by
  rw [foldl_max_from]
  exact le_max_left _ _

theorem foldl_max_mono (q : Move → Score) (ms : List Move) {v u : Score}
    (h : v ≤ u) :
    ms.foldl (fun a m => max a (q m)) v ≤ ms.foldl (fun a m => max a (q m)) u := by
  rw [foldl_max_from q ms v, foldl_max_from q ms u]
  exact max_le_max h (le_refl _)

theorem foldl_min_from (q : Move → Score) :
    ∀ (ms : List Move) (v : Score),
      ms.foldl (fun a m => min a (q m)) v =
        min v (ms.foldl (fun a m => min a (q m)) ⊤) := by
  intro ms
  induction ms with
  | nil => intro v; simp
  | cons m t ih =>
    intro v
    rw [List.foldl_cons, List.foldl_cons]
    rw [ih (min v (q m)), ih (min ⊤ (q m))]
    rw [top_inf_eq, min_assoc]

theorem foldl_min_le (q : Move → Score) (ms : List Move) (v : Score) :
    ms.foldl (fun a m => min a (q m)) v ≤ v := by
  rw [foldl_min_from]
  exact min_le_left _ _

theorem foldl_min_mono (q : Move → Score) (ms : List Move) {v u : Score}
    (h : v ≤ u) :
    ms.foldl (fun a m => min a (q m)) v ≤ ms.foldl (fun a m => min a (q m)) u := by
  rw [foldl_min_from q ms v, foldl_min_from q ms u]
  exact min_le_min h (le_refl _)

theorem abLoopMax_km
    {rec : Board → Score → Score → Option Move × Score × Board} {p : Nat}
    (hrecb : ∀ b' a bt, (rec b' a bt).2.2 = b') :
    ∀ (ms : List Move) (b : Board) (q : Move → Score) (alpha beta : Score)
      (best : Option Move) (value : Score),
      (∀ m ∈ ms, ∀ a bt : Score, a < bt →
        KMrel (rec (setCell b m.1 m.2 p) a bt).2.1 (q m) a bt) →
      alpha < beta → value ≤ alpha → (∀ m ∈ ms, b m.1 m.2 = EMPTY) →
      value ≤ (abLoopMax rec p ms b alpha beta best value).2.1 ∧
      KMrel (abLoopMax rec p ms b alpha beta best value).2.1
        (ms.foldl (fun v m => max v (q m)) value) alpha beta := by
  intro ms
  induction ms with
  | nil =>
    intro b q alpha beta best value _ _ _ _
    exact ⟨le_refl value, KMrel_of_eq rfl⟩
  | cons m rest ih =>
    intro b q alpha beta best value hq hab hva hemp
    rw [abLoopMax]
    have hrestore :
        setCell (rec (setCell b m.1 m.2 p) alpha beta).2.2 m.1 m.2 EMPTY = b := by
      rw [hrecb]
      exact setCell_restore (hemp m (List.mem_cons_self m rest))
    simp only [hrestore, if_lt_eq_max, List.foldl_cons]
    obtain ⟨hlow, hmid, hhigh⟩ :=
      hq m (List.mem_cons_self m rest) alpha beta hab
    set val := (rec (setCell b m.1 m.2 p) alpha beta).2.1 with hvaldef
    have hqrest : ∀ m2 ∈ rest, ∀ a bt : Score, a < bt →
        KMrel (rec (setCell b m2.1 m2.2 p) a bt).2.1 (q m2) a bt :=
      fun m2 hm2 => hq m2 (List.mem_cons_of_mem m hm2)
    have hemprest : ∀ m2 ∈ rest, b m2.1 m2.2 = EMPTY :=
      fun m2 hm2 => hemp m2 (List.mem_cons_of_mem m hm2)
    rcases le_or_lt val alpha with hv1 | hv1
    · -- the child failed low: val ≤ alpha, and q m ≤ val
      have hgcv : q m ≤ val := hlow hv1
      have hmaxva : max value val ≤ alpha := max_le hva hv1
      have halpha : max alpha (max value val) = alpha := max_eq_left hmaxva
      rw [halpha, if_neg (not_le.2 hab)]
      obtain ⟨ihd, ihl, ihm, ihh⟩ :=
        ih b q alpha beta (if value < val then some m else best) (max value val)
          hqrest hab hmaxva hemprest
      refine ⟨le_trans (le_max_left value val) ihd, ?_, ?_, ?_⟩
      · intro hS
        exact le_trans
          (foldl_max_mono q rest (max_le_max (le_refl value) hgcv)) (ihl hS)
      · intro hsa hsb
        have h1 := ihm hsa hsb
        have h2 : (abLoopMax rec p rest b alpha beta
            (if value < val then some m else best) (max value val)).2.1 =
            rest.foldl (fun a m2 => max a (q m2)) ⊥ := by
          rcases max_choice (max value val)
              (rest.foldl (fun a m2 => max a (q m2)) ⊥) with hc | hc
          · rw [foldl_max_from] at h1
            rw [hc] at h1
            exact absurd (lt_of_lt_of_le hsa (h1.le.trans hmaxva)) (lt_irrefl alpha)
          · rw [foldl_max_from] at h1
            rw [hc] at h1
            exact h1
        rw [foldl_max_from]
        rw [h2]
        have h3 : max value (q m) ≤ rest.foldl (fun a m2 => max a (q m2)) ⊥ := by
          rw [← h2]
          exact le_trans (max_le hva (le_trans hgcv hv1)) (le_of_lt hsa)
        rw [max_eq_right h3]
      · intro hsb
        have h1 := ihh hsb
        rw [foldl_max_from] at h1
        have h2 : (abLoopMax rec p rest b alpha beta
            (if value < val then some m else best) (max value val)).2.1 ≤
            rest.foldl (fun a m2 => max a (q m2)) ⊥ := by
          rcases le_max_iff.1 h1 with hc | hc
          · exact absurd
              (lt_of_lt_of_le hab (le_trans hsb (le_trans hc hmaxva)))
              (lt_irrefl alpha)
          · exact hc
        rw [foldl_max_from]
        exact le_trans h2 (le_max_right _ _)
    · rcases lt_or_le val beta with hv2 | hv2
      · -- alpha < val < beta: the child value is exact
        have hgcv : val = q m := hmid hv1 hv2
        have hmaxvv : max value val = val := max_eq_right (le_trans hva hv1.le)
        rw [hmaxvv]
        have halpha2 : max alpha val = val := max_eq_right hv1.le
        rw [halpha2, if_neg (not_le.2 hv2)]
        obtain ⟨ihd, ihl, ihm, ihh⟩ :=
          ih b q val beta (if value < val then some m else best) val
            hqrest hv2 (le_refl val) hemprest
        have hacc : max value (q m) = val := by
          rw [← hgcv]
          exact hmaxvv
        rw [hacc]
        refine ⟨le_trans (le_trans hva hv1.le) ihd, ?_, ?_, ?_⟩
        · intro hS
          exact absurd (lt_of_lt_of_le hv1 (le_trans ihd hS)) (lt_irrefl alpha)
        · intro hsa hsb
          rcases eq_or_lt_of_le ihd with he | hlt2
          · exact le_antisymm
              (he ▸ le_foldl_max q rest val)
              (ihl (le_of_eq he.symm))
          · exact ihm hlt2 hsb
        · intro hsb
          exact ihh hsb
      · -- beta ≤ val: beta cutoff, the loop stops here
        have hgcv : val ≤ q m := hhigh hv2
        have hmaxvv : max value val = val :=
          max_eq_right (le_trans hva (le_trans hab.le hv2))
        rw [hmaxvv]
        have hcut : beta ≤ max alpha val := le_trans hv2 (le_max_right alpha val)
        rw [if_pos hcut]
        refine ⟨le_trans hva (le_trans hab.le hv2), ?_, ?_, ?_⟩
        · intro hS
          exact absurd (lt_of_lt_of_le hab (le_trans hv2 hS)) (lt_irrefl alpha)
        · intro _ hsb
          exact absurd (lt_of_le_of_lt hv2 hsb) (lt_irrefl beta)
        · intro _
          exact le_trans hgcv
            (le_trans (le_max_right value (q m)) (le_foldl_max q rest _))

theorem abLoopMin_km
    {rec : Board → Score → Score → Option Move × Score × Board} {p : Nat}
    (hrecb : ∀ b' a bt, (rec b' a bt).2.2 = b') :
    ∀ (ms : List Move) (b : Board) (q : Move → Score) (alpha beta : Score)
      (best : Option Move) (value : Score),
      (∀ m ∈ ms, ∀ a bt : Score, a < bt →
        KMrel (rec (setCell b m.1 m.2 p) a bt).2.1 (q m) a bt) →
      alpha < beta → beta ≤ value → (∀ m ∈ ms, b m.1 m.2 = EMPTY) →
      (abLoopMin rec p ms b alpha beta best value).2.1 ≤ value ∧
      KMrel (abLoopMin rec p ms b alpha beta best value).2.1
        (ms.foldl (fun v m => min v (q m)) value) alpha beta := by
  intro ms
  induction ms with
  | nil =>
    intro b q alpha beta best value _ _ _ _
    exact ⟨le_refl value, KMrel_of_eq rfl⟩
  | cons m rest ih =>
    intro b q alpha beta best value hq hab hvb hemp
    rw [abLoopMin]
    have hrestore :
        setCell (rec (setCell b m.1 m.2 p) alpha beta).2.2 m.1 m.2 EMPTY = b := by
      rw [hrecb]
      exact setCell_restore (hemp m (List.mem_cons_self m rest))
    simp only [hrestore, if_lt_eq_min, List.foldl_cons]
    obtain ⟨hlow, hmid, hhigh⟩ :=
      hq m (List.mem_cons_self m rest) alpha beta hab
    set val := (rec (setCell b m.1 m.2 p) alpha beta).2.1 with hvaldef
    have hqrest : ∀ m2 ∈ rest, ∀ a bt : Score, a < bt →
        KMrel (rec (setCell b m2.1 m2.2 p) a bt).2.1 (q m2) a bt :=
      fun m2 hm2 => hq m2 (List.mem_cons_of_mem m hm2)
    have hemprest : ∀ m2 ∈ rest, b m2.1 m2.2 = EMPTY :=
      fun m2 hm2 => hemp m2 (List.mem_cons_of_mem m hm2)
    rcases le_or_lt beta val with hv2 | hv2
    · -- the child failed high: beta ≤ val, and val ≤ q m
      have hgcv : val ≤ q m := hhigh hv2
      have hminva : beta ≤ min value val := le_min hvb hv2
      have hbeta : min beta (min value val) = beta := min_eq_left hminva
      rw [hbeta, if_neg (not_le.2 hab)]
      obtain ⟨ihd, ihl, ihm, ihh⟩ :=
        ih b q alpha beta (if val < value then some m else best) (min value val)
          hqrest hab hminva hemprest
      refine ⟨le_trans ihd (min_le_left value val), ?_, ?_, ?_⟩
      · intro hS
        have h1 := ihl hS
        rw [foldl_min_from] at h1
        have h2 : rest.foldl (fun a m2 => min a (q m2)) ⊤ ≤
            (abLoopMin rec p rest b alpha beta
              (if val < value then some m else best) (min value val)).2.1 := by
          rcases min_le_iff.1 h1 with hc | hc
          · exact absurd
              (lt_of_lt_of_le hab (le_trans hminva (hc.trans hS)))
              (lt_irrefl alpha)
          · exact hc
        rw [foldl_min_from]
        exact le_trans (min_le_right _ _) h2
      · intro hsa hsb
        have h1 := ihm hsa hsb
        have h2 : (abLoopMin rec p rest b alpha beta
            (if val < value then some m else best) (min value val)).2.1 =
            rest.foldl (fun a m2 => min a (q m2)) ⊤ := by
          rcases min_choice (min value val)
              (rest.foldl (fun a m2 => min a (q m2)) ⊤) with hc | hc
          · rw [foldl_min_from] at h1
            rw [hc] at h1
            exact absurd (lt_of_le_of_lt (hminva.trans h1.ge) hsb)
              (lt_irrefl beta)
          · rw [foldl_min_from] at h1
            rw [hc] at h1
            exact h1
        rw [foldl_min_from, h2]
        have h3 : rest.foldl (fun a m2 => min a (q m2)) ⊤ ≤ min value (q m) := by
          rw [← h2]
          exact le_min (le_trans (le_of_lt hsb) hvb)
            (le_trans (le_of_lt hsb) (le_trans hv2 hgcv))
        rw [min_eq_right h3]
      · intro hsb
        exact le_trans (ihh hsb)
          (foldl_min_mono q rest (min_le_min (le_refl value) hgcv))
    · rcases lt_or_le alpha val with hv1 | hv1
      · -- alpha < val < beta: the child value is exact
        have hgcv : val = q m := hmid hv1 hv2
        have hminvv : min value val = val := min_eq_right (le_trans hv2.le hvb)
        rw [hminvv]
        have hbeta2 : min beta val = val := min_eq_right hv2.le
        rw [hbeta2, if_neg (not_le.2 hv1)]
        obtain ⟨ihd, ihl, ihm, ihh⟩ :=
          ih b q alpha val (if val < value then some m else best) val
            hqrest hv1 (le_refl val) hemprest
        have hacc : min value (q m) = val := by
          rw [← hgcv]
          exact hminvv
        rw [hacc]
        refine ⟨le_trans ihd (le_trans hv2.le hvb), ?_, ?_, ?_⟩
        · intro hS
          exact ihl hS
        · intro hsa hsb
          rcases eq_or_lt_of_le ihd with he | hlt2
          · exact le_antisymm (ihh (le_of_eq he.symm))
              ((foldl_min_le q rest val).trans he.ge)
          · exact ihm hsa hlt2
        · intro hsb
          exact absurd (lt_of_le_of_lt (hsb.trans ihd) hv2) (lt_irrefl beta)
      · -- val ≤ alpha: alpha cutoff, the loop stops here
        have hgcv : q m ≤ val := hlow hv1
        have hminvv : min value val = val :=
          min_eq_right (le_trans hv1 (le_trans hab.le hvb))
        rw [hminvv]
        have hcut : min beta val ≤ alpha := le_trans (min_le_right beta val) hv1
        rw [if_pos hcut]
        refine ⟨le_trans hv1 (le_trans hab.le hvb), ?_, ?_, ?_⟩
        · intro _
          exact le_trans (foldl_min_le q rest _)
            (le_trans (min_le_right value (q m)) hgcv)
        · intro hsa _
          exact absurd (lt_of_lt_of_le hsa hv1) (lt_irrefl alpha)
        · intro hsb
          exact absurd (lt_of_lt_of_le hab (le_trans hsb hv1)) (lt_irrefl alpha)

theorem minimax_km :
    ∀ (d : Nat) (b : Board) (maxi : Bool) (p : Nat) (alpha beta : Score),
      alpha < beta →
      KMrel (minimax d b alpha beta maxi p).2.1 (minimax_np d b maxi p)
        alpha beta := by
  intro d
  induction d with
  | zero =>
    intro b maxi p alpha beta hab
    apply KMrel_of_eq
    rw [minimax.eq_def, minimax_np.eq_def]
    dsimp only
    by_cases h1 : game_over b = Outcome.win p
    · rw [if_pos h1, if_pos h1]
    · rw [if_neg h1, if_neg h1]
      by_cases h2 : (game_over b).isWin = true
      · rw [if_pos h2, if_pos h2]
      · rw [if_neg h2, if_neg h2]
        by_cases h3 : game_over b = Outcome.draw
        · rw [if_pos h3, if_pos h3]
        · rw [if_neg h3, if_neg h3]
  | succ k ih =>
    intro b maxi p alpha beta hab
    rw [minimax.eq_def, minimax_np.eq_def]
    dsimp only
    by_cases h1 : game_over b = Outcome.win p
    · rw [if_pos h1, if_pos h1]
      exact KMrel_of_eq rfl
    · rw [if_neg h1, if_neg h1]
      by_cases h2 : (game_over b).isWin = true
      · rw [if_pos h2, if_pos h2]
        exact KMrel_of_eq rfl
      · rw [if_neg h2, if_neg h2]
        by_cases h3 : game_over b = Outcome.draw
        · rw [if_pos h3, if_pos h3]
          exact KMrel_of_eq rfl
        · rw [if_neg h3, if_neg h3]
          have hip : game_over b = Outcome.inProgress := outcome_inProgress h2 h3
          by_cases h4 : maxi = true
          · rw [if_pos h4, if_pos h4]
            exact (abLoopMax_km
              (fun b' a bt => minimax_board k b' a bt false p)
              (sorted_moves b) b
              (fun m => minimax_np k (setCell b m.1 m.2 p) false p)
              alpha beta none ⊥
              (fun m _ a bt habt => ih (setCell b m.1 m.2 p) false p a bt habt)
              hab bot_le (sorted_moves_empty hip)).2
          · rw [if_neg h4, if_neg h4]
            exact (abLoopMin_km
              (fun b' a bt => minimax_board k b' a bt true p)
              (sorted_moves b) b
              (fun m => minimax_np k (setCell b m.1 m.2 (opponent p)) true p)
              alpha beta none ⊤
              (fun m _ a bt habt =>
                ih (setCell b m.1 m.2 (opponent p)) true p a bt habt)
              hab le_top (sorted_moves_empty hip)).2

/-- C6: started with alpha = −∞ and beta = +∞, the alpha-beta search returns
exactly the score of an unpruned full minimax traversal of the same game tree
(same candidate generation, ordering, terminal checks, evaluation; cutoff
tests removed): pruning never changes the computed value. -/
theorem alphabeta_eq_minimax (d : Nat) (b : Board) (maxi : Bool) (p : Nat) :
    (minimax d b ⊥ ⊤ maxi p).2.1 = minimax_np d b maxi p := by
  obtain ⟨z, hz⟩ := minimax_fin d b ⊥ ⊤ maxi p
  obtain ⟨_, hm, _⟩ := minimax_km d b maxi p ⊥ ⊤ bot_lt_top
  exact hm (by rw [hz]; exact bot_lt_sc z) (by rw [hz]; exact sc_lt_top z)

end Gomoku
